import Mathlib

/-!
Verification of the mandelbrot escape-time kernels of the benchmarksgame
repository (files `mandelbrot_reference.cpp`, `mandelbrot_avx/mandelbrot_avx.cpp`
and `mandelbrot_avx2/mandelbrot_avx.cpp`).

The three C++ programs iterate `z <- z^2 + c` (with `z0 = c`) over a sampled
viewport and rasterize "bounded vs escaped" into a 1-bit-per-pixel bitmap.
This file gives a shallow embedding of those programs over exact rational
arithmetic (`ℚ` stands for the floating-point value domain of the sources,
whose `float`/`double` constants `-1.5, -1.0, 0.5, 1.0, 4.0` are all exactly
representable, so every expression of the sources maps to the corresponding
exact expression here) and proves, or refutes, the specified properties.

Conventions:
* A vector register (`__m256` of 8 floats, `__m256d` of 4 doubles) holds
  independent lanes; a whole 4-register batch is embedded as a `List (ℚ × ℚ)`
  of its lanes in mask-bit order (bit `8*r + j` of the kernel's return value
  corresponds to list index `8*r + j` for the avx file; the avx2 file fills
  16 lanes the same way).
* The kernels' macro `MANDEL_ITERATION()` updates every lane once; the macros
  `MANDEL_CMP`/`MANDEL_CMPMASK`/`MANDEL_CHECKINF` compare `x2[i]+y2[i]`, the
  squares saved by the *last executed* `MANDEL_INDEPENDENT`, i.e. the squares
  of the state *before* the last dependent update.  So a comparison placed
  after `n` iterations of a block observes the state after `n - 1` updates.
-/

/-! ### Viewport constants (identical in all three files) -/

/-- `min_x = -1.5` (`-1.5F` in the avx file, `-1.5` in the others). -/
def min_x : ℚ := -(3/2)

/-- `min_y = -1.0`. -/
def min_y : ℚ := -1

/-- `max_x = 0.5`. -/
def max_x : ℚ := 1/2

/-- `max_y = 1.0`. -/
def max_y : ℚ := 1

/-- `scalex = (max_x - min_x) / dim` as computed in each `compute_set`. -/
def scalex (dim : ℕ) : ℚ := (max_x - min_x) / dim

/-- `scaley = (max_y - min_y) / dim` as computed in each `compute_set`. -/
def scaley (dim : ℕ) : ℚ := (max_y - min_y) / dim

/-! ### The quadratic recurrence, one lane -/

/-- `x*x + y*y`, the squared modulus tested against `4` everywhere. -/
def normSq (z : ℚ × ℚ) : ℚ := z.1 * z.1 + z.2 * z.2

/-- One simultaneous update `x' = x2 - y2 + cx`, `y' = xy + xy + cy`
(the bodies of `MANDEL_INDEPENDENT`/`MANDEL_DEPENDENT`, and lines 119-120 of
the reference file, which save `x2`,`y2` before overwriting `y`). -/
def stepLane (c z : ℚ × ℚ) : ℚ × ℚ :=
  (z.1 * z.1 - z.2 * z.2 + c.1, 2 * (z.1 * z.2) + c.2)

/-- `n`-fold application of `stepLane c` (helper for stating what the loops
of the sources compute). -/
def iterFrom (c : ℚ × ℚ) : ℕ → (ℚ × ℚ) → (ℚ × ℚ)
  | 0, z => z
  | n + 1, z => iterFrom c n (stepLane c z)

/-- The orbit of seed `c`: all sources start at `x = cx, y = cy`, i.e. `z0 = c`. -/
def orbit (c : ℚ × ℚ) (n : ℕ) : ℚ × ℚ := iterFrom c n c

/-! ### The scalar reference implementation (`mandelbrot_reference.cpp`) -/

/-- `max_iter = 50U` of the reference file. -/
def ref_max_iter : ℕ := 50

/-- The loop body of `mandelbrot` (reference file, lines 111-121): compute
`x2`,`y2`, return the remaining counter if `x2 + y2 > 4`, else update and
continue; the counter counts down from `ref_max_iter` to `0`. -/
def mandelbrotAux (cx cy : ℚ) : ℕ → ℚ → ℚ → ℕ
  | 0, _, _ => 0
  | n + 1, x, y =>
    let x2 := x * x
    let y2 := y * y
    if x2 + y2 > 4 then n + 1
    else mandelbrotAux cx cy n (x2 - y2 + cx) (2 * (x * y) + cy)

/-- `mandelbrot` generalized over the iteration budget (the reference file
fixes the budget to the constant `ref_max_iter`). -/
def mandelbrotIter (m : ℕ) (cx cy : ℚ) : ℕ := mandelbrotAux cx cy m cx cy

/-- `mandelbrot (cx, cy)` of the reference file: start at `x = cx, y = cy`
with `iter = max_iter`. -/
def mandelbrot (cx cy : ℚ) : ℕ := mandelbrotIter ref_max_iter cx cy

/-- A pixel's bit in the reference `compute_set`: `1` iff `mandelbrot` returned
`0` (budget exhausted without escaping). -/
def refBounded (c : ℚ × ℚ) : Bool := decide (mandelbrot c.1 c.2 = 0)

/-- The reference `compute_set` seeds pixel `(x, y)` with
`(scalex*x + min_x, scaley*y + min_y)` (line 145). -/
def refSeed (dim x y : ℕ) : ℚ × ℚ :=
  (scalex dim * x + min_x, scaley dim * y + min_y)

/-- The bit the reference `compute_set` computes for pixel `(x, y)`:
`mandelbrot` at the pixel's seed, tested against `0` (lines 145-150). -/
def refPixelBit (dim x y : ℕ) : Bool :=
  decide (mandelbrot (refSeed dim x y).1 (refSeed dim x y).2 = 0)

/-! ### The vectorized kernels (`mandelbrot_avx` / `mandelbrot_avx2` files)

Both files define the same pair of kernels; they differ only in vector width
(8-float registers giving 32 lanes vs 4-double registers giving 16 lanes),
which the list embedding leaves to the caller, and in the float width, which
the `ℚ` embedding abstracts.  Lane count is the length of the seed list. -/

/-- `MANDEL_ITERATION()`: one `stepLane` on every lane. -/
def mandelIteration (cs zs : List (ℚ × ℚ)) : List (ℚ × ℚ) :=
  List.zipWith (fun c z => stepLane c z) cs zs

/-- `n` repetitions of `MANDEL_ITERATION()`. -/
def iterN (cs : List (ℚ × ℚ)) : ℕ → List (ℚ × ℚ) → List (ℚ × ℚ)
  | 0, zs => zs
  | n + 1, zs => iterN cs n (mandelIteration cs zs)

/-- The boundary comparison of the avx file:
`MANDEL_CMP(i) = _mm256_cmp_ps (x2[i] + y2[i], 4.0F, _CMP_LE_OQ)`. -/
def avxCmpLE (s : ℚ) : Bool := decide (s ≤ 4)

/-- The boundary comparison of the avx2 file:
`MANDEL_CMP(i) = _mm256_cmp_pd (x2[i] + y2[i], 4.0, _CMP_LE_OQ)`. -/
def avx2CmpLE (s : ℚ) : Bool := decide (s ≤ 4)

/-- The boundary test of the reference file, as a predicate of `x2 + y2`:
the loop *continues* (stays "bounded") exactly when the escape condition
`x2 + y2 > 4` of line 115 fails. -/
def refBoundedTest (s : ℚ) : Bool := !(decide (s > 4))

/-- Per-lane `MANDEL_CMP` applied to a lane state: the compared sum
`x2[i] + y2[i]` is the squared modulus of that state. -/
def mandelCmp (z : ℚ × ℚ) : Bool := avxCmpLE (normSq z)

/-- `MANDEL_CMPMASK()` / the lane mask: one comparison bit per lane, in mask
order.  A `true` bit means "still `≤ 4`", which `compute_set` stores as a
set pixel bit. -/
def cmpMask (zs : List (ℚ × ℚ)) : List Bool := zs.map mandelCmp

/-- The block count of the kernels' outer loop: `for (iter = 6; iter > 0; --iter)`. -/
def avx_blocks : ℕ := 6

/-- Iteration budget of `mandelbrot_avx`/`mandelbrot_avx_full` in the avx
file: `6 * 8 + 2 => 50 iterations` (comment at line 151). -/
def avx_iter_budget : ℕ := 8 * avx_blocks + 2

/-- Iteration budget in the avx2 file: also `6 * 8 + 2 => 50 iterations`. -/
def avx2_iter_budget : ℕ := 8 * avx_blocks + 2

/-- The early-exit outer loop shared by both files' `mandelbrot_avx`: each
round runs 8 `MANDEL_ITERATION()`s, then `MANDEL_CHECKINF` tests the `x2,y2`
of the last iteration -- the squares of the state 7 updates into the block --
and returns mask `0` when no lane is still `≤ 4`.  `none` models `return 0`,
`some zs` falls through with the lane states after `8 * avx_blocks` updates. -/
def avxBlocks (cs : List (ℚ × ℚ)) : ℕ → List (ℚ × ℚ) → Option (List (ℚ × ℚ))
  | 0, zs => some zs
  | b + 1, zs =>
    if (cmpMask (iterN cs 7 zs)).any id
    then avxBlocks cs b (iterN cs 8 zs)
    else none

/-- `mandelbrot_avx` of both vector files: the checked kernel.  After the
6 blocks come the `// Last 2 steps`: two more `MANDEL_ITERATION()`s and then
`MANDEL_CMPMASK()`, whose `x2[i], y2[i]` are the squares of the state before
the 50th update, i.e. the state after `8 * 6 + 1 = 49` updates; the 50th
update's result is never read.  `return 0` becomes the all-`false` mask. -/
def mandelbrot_avx (cs : List (ℚ × ℚ)) : List Bool :=
  match avxBlocks cs avx_blocks cs with
  | none => List.replicate cs.length false
  | some zs => cmpMask (iterN cs 1 zs)

/-- `mandelbrot_avx_full` of both vector files: identical to `mandelbrot_avx`
but with the per-block `MANDEL_CHECKINF` escape check removed -- it always
runs the full `6 * 8 + 2` iterations and returns `MANDEL_CMPMASK()`, which
observes the state after 49 updates. -/
def mandelbrot_avx_full (cs : List (ℚ × ℚ)) : List Bool :=
  cmpMask (iterN cs (8 * avx_blocks + 1) cs)

/-! ### `compute_set` of the avx file -/

/-- `bitmap::w = (x + 7) / 8`, the bitmap's row width in bytes. -/
def widthB (dim : ℕ) : ℕ := (dim + 7) / 8

/-- Lane `j` (mask-bit order) of the precomputed `cxs[i]` vector:
`_mm256_set_ps` lists elements from lane 7 down to lane 0, so lane `j` holds
`min_x + (8*i + (7-j)) * scalex` (avx file, lines 232-241). -/
def cxsLane (dim i j : ℕ) : ℚ := min_x + ((8 * i + (7 - j) : ℕ) : ℚ) * scalex dim

/-- The row constants `cy0 .. cy3` of the avx file's row-group loop:
`cy0 = scaley*y + min_y` and `cyr = cy0 + r*scaley` (lines 249-252). -/
def cyOff (dim y r : ℕ) : ℚ := (scaley dim * y + min_y) + r * scaley dim

/-- The 32 seed lanes handed to a kernel for column batch `w` of the
row-group starting at row `y`: vector `r` (mask bits `8*r .. 8*r+7`) pairs
`cxs[w]` with `cy_r` (lines 259-261). -/
def batchSeeds (dim y w : ℕ) : List (ℚ × ℚ) :=
  (List.range 4).flatMap (fun r =>
    (List.range 8).map (fun j => (cxsLane dim w j, cyOff dim y r)))

/-- The column batches of one row-group, in loop order `w = 0 .. width-1`. -/
def avxRowBatches (dim y : ℕ) : List (List (ℚ × ℚ)) :=
  (List.range (widthB dim)).map (fun w => batchSeeds dim y w)

/-- `bits2 != 0`: some mask bit is set. -/
def maskNonzero (m : List Bool) : Bool := m.any id

/-- The inner `w` loop of the avx `compute_set` (lines 254-274), keeping the
per-batch record `(last_reached_full used for this batch, returned mask)`:
each batch calls `mandelbrot_avx_full` when `last_reached_full` is set and
`mandelbrot_avx` otherwise, then `last_reached_full = (bits2 != 0)`. -/
def computeRowAux (lrf : Bool) : List (List (ℚ × ℚ)) → List (Bool × List Bool)
  | [] => []
  | b :: bs =>
    let m := if lrf then mandelbrot_avx_full b else mandelbrot_avx b
    (lrf, m) :: computeRowAux (maskNonzero m) bs

/-- The same loop with the warm-start heuristic disabled: every batch takes
the checked path `mandelbrot_avx`. -/
def computeRowChecked (bs : List (List (ℚ × ℚ))) : List (Bool × List Bool) :=
  bs.map (fun b => (false, mandelbrot_avx b))

/-- The masks produced for row-group `g` (rows `4*g .. 4*g+3`). -/
def groupMasks (dim g : ℕ) : List (List Bool) :=
  (computeRowAux false (avxRowBatches dim (4 * g))).map Prod.snd

/-- The masks produced for row-group `g` when every batch takes the checked path. -/
def groupMasksChecked (dim g : ℕ) : List (List Bool) :=
  (computeRowChecked (avxRowBatches dim (4 * g))).map Prod.snd

/-- A byte from mask bits listed least-significant first:
`byteOfBits [b0, ..., b7] = b0 + 2*b1 + ... + 128*b7`. -/
def byteOfBits (bs : List Bool) : ℕ :=
  bs.foldr (fun b acc => (if b then 1 else 0) + 2 * acc) 0

/-- `0xFF & (bits2 >> (8*r))`: byte `r` of a returned mask. -/
def maskByte (m : List Bool) (r : ℕ) : ℕ := byteOfBits ((m.drop (8 * r)).take 8)

/-- A single byte store `pset[a] = v` on a bitmap modeled as `ℕ → ℕ`. -/
def store (a v : ℕ) (bmp : ℕ → ℕ) : ℕ → ℕ :=
  fun x => if x = a then v else bmp x

/-- The stores issued for one row-group given its masks `ms`, in program
order: for each `w`, the four bytes
`pset[yoffset + r*width + w] = 0xFF & (bits2 >> 8*r)` with `yoffset = width*y`
(avx file, lines 268-271). -/
def groupWritesOf (ms : List (List Bool)) (width y : ℕ) : List (ℕ × ℕ) :=
  (List.range width).flatMap (fun w =>
    (List.range 4).map (fun r => (width * y + r * width + w, maskByte (ms.getD w []) r)))

/-- The stores of row-group `g` of the avx `compute_set` (heuristic enabled). -/
def groupWrites (dim g : ℕ) : List (ℕ × ℕ) :=
  groupWritesOf (groupMasks dim g) (widthB dim) (4 * g)

/-- The byte addresses written by row-group `g`. -/
def groupAddrs (dim g : ℕ) : List ℕ := (groupWrites dim g).map Prod.fst

/-- Execute all stores of row-group `g` on a bitmap. -/
def writeGroup (dim : ℕ) (bmp : ℕ → ℕ) (g : ℕ) : ℕ → ℕ :=
  (groupWrites dim g).foldl (fun b av => store av.1 av.2 b) bmp

/-- Execute all stores of row-group `g` with the heuristic disabled. -/
def writeGroupChecked (dim : ℕ) (bmp : ℕ → ℕ) (g : ℕ) : ℕ → ℕ :=
  (groupWritesOf (groupMasksChecked dim g) (widthB dim) (4 * g)).foldl
    (fun b av => store av.1 av.2 b) bmp

/-- The avx `compute_set`, processing the row-groups listed in `order` (the
`omp parallel for` loop body is executed once per `sy = 4*g`; `order`
abstracts the schedule) starting from bitmap contents `init` (the `malloc`ed
buffer). -/
def computeSet (dim : ℕ) (order : List ℕ) (init : ℕ → ℕ) : ℕ → ℕ :=
  order.foldl (writeGroup dim) init

/-- The avx `compute_set` with its canonical row-group order `0, 1, ...`
(`for sy = 0; sy < dim; sy += 4`). -/
def computeSetRun (dim : ℕ) (init : ℕ → ℕ) : ℕ → ℕ :=
  computeSet dim (List.range (dim / 4)) init

/-- The avx `compute_set` with the warm-start heuristic disabled everywhere. -/
def computeSetChecked (dim : ℕ) (init : ℕ → ℕ) : ℕ → ℕ :=
  (List.range (dim / 4)).foldl (writeGroupChecked dim) init

/-! ### Sampler expressions of the avx2 file (`compute_set`, lines 227-251) -/

/-- `cx0 = min_x_4 + (x_8 + lshift_x_4) * scale_x_4` with
`lshift_x_4 = _mm256_set_pd (0, 1, 2, 3)` (lanes 0..3 hold shifts 3,2,1,0),
listed in lane order. -/
def avx2cx0 (dim w : ℕ) : List ℚ :=
  [ min_x + ((8 * w : ℕ) + (3 : ℚ)) * scalex dim
  , min_x + ((8 * w : ℕ) + (2 : ℚ)) * scalex dim
  , min_x + ((8 * w : ℕ) + (1 : ℚ)) * scalex dim
  , min_x + ((8 * w : ℕ) + (0 : ℚ)) * scalex dim ]

/-- `cx1 = min_x_4 + (x_8 + ushift_x_4) * scale_x_4` with
`ushift_x_4 = _mm256_set_pd (4, 5, 6, 7)`, listed in lane order. -/
def avx2cx1 (dim w : ℕ) : List ℚ :=
  [ min_x + ((8 * w : ℕ) + (7 : ℚ)) * scalex dim
  , min_x + ((8 * w : ℕ) + (6 : ℚ)) * scalex dim
  , min_x + ((8 * w : ℕ) + (5 : ℚ)) * scalex dim
  , min_x + ((8 * w : ℕ) + (4 : ℚ)) * scalex dim ]

/-- `cy0 = scale_y*y + min_y` of the avx2 row-group loop. -/
def avx2cy0 (dim y : ℕ) : ℚ := scaley dim * y + min_y

/-- `cy1 = scale_y*(y + 1) + min_y` of the avx2 row-group loop. -/
def avx2cy1 (dim y : ℕ) : ℚ := scaley dim * (y + 1) + min_y

/-- Modelled from the spec (section 4.1 Sampler), as the refinement target the
samplers of the three files are compared against: the seed of pixel
`(px, py)` is `(min_x + px * scale_x, min_y + py * scale_y)` with
`scale_x = (max_x - min_x) / width` and `scale_y = (max_y - min_y) / height`
(square field: `width = height = dim`). -/
def samplerSpec (dim px py : ℕ) : ℚ × ℚ :=
  (min_x + px * ((max_x - min_x) / dim), min_y + py * ((max_y - min_y) / dim))

/-! ### The command-line wrapper (`main` of the reference and avx files) -/

/-- The `dim` lambda of `main`: the parsed argument if present (`atoi`'s
numeric result, `0` standing for an absent argument as in `argc > 1 ? ... : 0`),
replaced by `200` unless positive. -/
def chooseDim (arg : Option Int) : Int :=
  let d := match arg with
    | some v => v
    | none => 0
  if d > 0 then d else 200

/-- `main` up to its observable outcome: `if (dim % 8 != 0)` report and
`return 999` before any field computation; otherwise run `compute_set dim`
(the bitmap is `dim x dim`: `create_bitmap (dim, dim)`). -/
def mainRun (arg : Option Int) : Except Int (ℕ × ((ℕ → ℕ) → ℕ → ℕ)) :=
  let dim := chooseDim arg
  if dim % 8 ≠ 0 then Except.error 999
  else Except.ok (dim.toNat, computeSetRun dim.toNat)

/-- The viewport membership used to state "seeds drawn from the viewport". -/
def inViewport (c : ℚ × ℚ) : Prop :=
  min_x ≤ c.1 ∧ c.1 ≤ max_x ∧ min_y ≤ c.2 ∧ c.2 ≤ max_y

instance (c : ℚ × ℚ) : Decidable (inViewport c) := by
  unfold inViewport; infer_instance

/-! ### Escape monotonicity

Once `x^2 + y^2 > 4`, one more update keeps the squared modulus above `4`,
provided the seed satisfies `cx^2 + cy^2 ≤ 4` (true of every viewport point,
since `|c|^2 ≤ 1.5^2 + 1^2 = 3.25`). -/

theorem escape_step {cx cy x y : ℚ} (hc : cx ^ 2 + cy ^ 2 ≤ 4)
    (hx : x ^ 2 + y ^ 2 > 4) :
    (x * x - y * y + cx) ^ 2 + (2 * (x * y) + cy) ^ 2 > 4 := by
  nlinarith [sq_nonneg ((x ^ 2 - y ^ 2) * cy - 2 * x * y * cx),
    sq_nonneg (x ^ 2 + y ^ 2 - 4),
    sq_nonneg ((x ^ 2 - y ^ 2) * cx + 2 * x * y * cy + (x ^ 2 + y ^ 2)),
    sq_nonneg (x ^ 2 + y ^ 2 + cx ^ 2 + cy ^ 2 - 4),
    sq_nonneg (x ^ 2 - y ^ 2), sq_nonneg (2 * x * y), sq_nonneg (x ^ 2 + y ^ 2)]

theorem normSq_stepLane_gt {c z : ℚ × ℚ} (hc : normSq c ≤ 4) (hz : normSq z > 4) :
    normSq (stepLane c z) > 4 := by
  obtain ⟨cx, cy⟩ := c
  obtain ⟨x, y⟩ := z
  simp only [normSq, stepLane] at hc hz ⊢
  have h := @escape_step cx cy x y (by nlinarith) (by nlinarith)
  nlinarith [h]

theorem escape_iterFrom {c : ℚ × ℚ} (hc : normSq c ≤ 4) :
    ∀ (n : ℕ) (z : ℚ × ℚ), normSq z > 4 → normSq (iterFrom c n z) > 4 := by
  intro n
  induction n with
  | zero => intro z hz; exact hz
  | succ n ih =>
    intro z hz
    exact ih (stepLane c z) (normSq_stepLane_gt hc hz)

theorem iterFrom_add (c : ℚ × ℚ) (m n : ℕ) (z : ℚ × ℚ) :
    iterFrom c (m + n) z = iterFrom c n (iterFrom c m z) := by
  induction m generalizing z with
  | zero => rw [Nat.zero_add]; rfl
  | succ m ih =>
    have h : m + 1 + n = (m + n) + 1 := by omega
    rw [h]
    show iterFrom c (m + n) (stepLane c z) = _
    rw [ih (stepLane c z)]
    rfl

/-- An orbit whose squared modulus has exceeded `4` keeps exceeding `4` at
every later index (seed in the closed disk of radius 2). -/
theorem escape_orbit {c : ℚ × ℚ} (hc : normSq c ≤ 4) {k m : ℕ} (hkm : k ≤ m)
    (hk : normSq (orbit c k) > 4) : normSq (orbit c m) > 4 := by
  have h : m = k + (m - k) := by omega
  rw [h]
  unfold orbit
  rw [iterFrom_add]
  exact escape_iterFrom hc (m - k) _ hk

/-! ### Characterizing the reference kernel -/

theorem mandelbrotAux_eq_zero_iff (cx cy : ℚ) :
    ∀ (n : ℕ) (x y : ℚ),
      (mandelbrotAux cx cy n x y = 0 ↔
        ∀ i < n, normSq (iterFrom (cx, cy) i (x, y)) ≤ 4) := by
  intro n
  induction n with
  | zero =>
    intro x y
    simp [mandelbrotAux]
  | succ n ih =>
    intro x y
    by_cases h : x * x + y * y > 4
    · simp only [mandelbrotAux, h, if_pos]
      constructor
      · intro h0; exact absurd h0 (Nat.succ_ne_zero n)
      · intro hall
        have h0 := hall 0 (Nat.succ_pos n)
        simp [iterFrom, normSq] at h0
        exact absurd h (by simpa using not_lt.mpr h0)
    · simp only [mandelbrotAux, h, if_neg, if_false]
      rw [ih (x * x - y * y + cx) (2 * (x * y) + cy)]
      constructor
      · intro hall i hi
        cases i with
        | zero =>
          simp [iterFrom, normSq]
          exact le_of_not_lt h
        | succ i =>
          have := hall i (by omega)
          simpa [iterFrom, stepLane] using this
      · intro hall i hi
        have := hall (i + 1) (by omega)
        simpa [iterFrom, stepLane] using this

theorem mandelbrotIter_eq_zero_iff (m : ℕ) (c : ℚ × ℚ) :
    mandelbrotIter m c.1 c.2 = 0 ↔ ∀ i < m, normSq (orbit c i) ≤ 4 := by
  unfold mandelbrotIter orbit
  exact mandelbrotAux_eq_zero_iff c.1 c.2 m c.1 c.2

/-- Under escape monotonicity, checking the whole orbit prefix is the same as
checking its last point: the reference's 50 checks (of `z_0 .. z_49`) agree
with the single check of `z_49`. -/
theorem bounded_prefix_iff_last {c : ℚ × ℚ} (hc : normSq c ≤ 4) :
    (∀ i < ref_max_iter, normSq (orbit c i) ≤ 4) ↔ normSq (orbit c 49) ≤ 4 := by
  constructor
  · intro h; exact h 49 (by norm_num [ref_max_iter])
  · intro h i hi
    by_contra hgt
    push_neg at hgt
    have : normSq (orbit c 49) > 4 :=
      escape_orbit hc (by unfold ref_max_iter at hi; omega) hgt
    exact absurd h (not_le.mpr this)

theorem refBounded_eq_cmp_orbit49 {c : ℚ × ℚ} (hc : normSq c ≤ 4) :
    refBounded c = mandelCmp (orbit c 49) := by
  have h1 := mandelbrotIter_eq_zero_iff ref_max_iter c
  have h2 := bounded_prefix_iff_last hc
  unfold refBounded mandelbrot mandelCmp avxCmpLE
  exact decide_eq_decide.mpr (h1.trans h2)

/-! ### Characterizing the vectorized kernels

The lanes of a batch are independent: `iterN` is `iterFrom` lane-wise, so the
kernels compute, per lane, a function of that lane's orbit alone -- except for
the early-exit test, which observes all lanes at once. -/

theorem zipWith_apply_zipWith {α β : Type} (f : α → β → β) (g : α → β → β)
    (cs : List α) : ∀ zs : List β,
      List.zipWith f cs (List.zipWith g cs zs) =
        List.zipWith (fun c z => f c (g c z)) cs zs := by
  induction cs with
  | nil => intro zs; rfl
  | cons c cs ih =>
    intro zs
    cases zs with
    | nil => rfl
    | cons z zs => simp [List.zipWith, ih]

theorem zipWith_snd_of_length_eq {α β : Type} :
    ∀ (cs : List α) (zs : List β), zs.length = cs.length →
      List.zipWith (fun _ z => z) cs zs = zs := by
  intro cs
  induction cs with
  | nil =>
    intro zs h
    cases zs with
    | nil => rfl
    | cons z zs => simp at h
  | cons c cs ih =>
    intro zs h
    cases zs with
    | nil => simp at h
    | cons z zs =>
      simp only [List.length_cons, Nat.add_right_cancel_iff] at h
      show z :: List.zipWith (fun _ z => z) cs zs = z :: zs
      rw [ih zs h]

theorem iterN_eq_zipWith (cs : List (ℚ × ℚ)) :
    ∀ (n : ℕ) (zs : List (ℚ × ℚ)), zs.length = cs.length →
      iterN cs n zs = List.zipWith (fun c z => iterFrom c n z) cs zs := by
  intro n
  induction n with
  | zero =>
    intro zs h
    show zs = _
    rw [show (fun (c z : ℚ × ℚ) => iterFrom c 0 z) = fun (_ z : ℚ × ℚ) => z from rfl]
    exact (zipWith_snd_of_length_eq cs zs h).symm
  | succ n ih =>
    intro zs h
    show iterN cs n (mandelIteration cs zs) = _
    rw [ih (mandelIteration cs zs)
      (by simp [mandelIteration, List.length_zipWith, h])]
    unfold mandelIteration
    rw [zipWith_apply_zipWith]
    rfl

theorem iterN_self (cs : List (ℚ × ℚ)) (n : ℕ) :
    iterN cs n cs = cs.map (fun c => orbit c n) := by
  rw [iterN_eq_zipWith cs n cs rfl, List.zipWith_same]
  rfl

theorem iterN_add (cs : List (ℚ × ℚ)) (m n : ℕ) (zs : List (ℚ × ℚ)) :
    iterN cs (m + n) zs = iterN cs n (iterN cs m zs) := by
  induction m generalizing zs with
  | zero => rw [Nat.zero_add]; rfl
  | succ m ih =>
    have h : m + 1 + n = (m + n) + 1 := by omega
    rw [h]
    show iterN cs (m + n) (mandelIteration cs zs) = _
    rw [ih (mandelIteration cs zs)]
    rfl

theorem avxBlocks_some (cs : List (ℚ × ℚ)) :
    ∀ (b : ℕ) (zs zs' : List (ℚ × ℚ)), avxBlocks cs b zs = some zs' →
      zs' = iterN cs (8 * b) zs := by
  intro b
  induction b with
  | zero =>
    intro zs zs' h
    simp [avxBlocks] at h
    subst h
    rfl
  | succ b ih =>
    intro zs zs' h
    unfold avxBlocks at h
    by_cases hc : (cmpMask (iterN cs 7 zs)).any id
    · rw [if_pos hc] at h
      have := ih (iterN cs 8 zs) zs' h
      rw [this, ← iterN_add]
      congr 1
      omega
    · rw [if_neg hc] at h
      exact absurd h (by simp)

theorem avxBlocks_none (cs : List (ℚ × ℚ)) :
    ∀ (b : ℕ) (zs : List (ℚ × ℚ)), avxBlocks cs b zs = none →
      ∃ j < b, (cmpMask (iterN cs 7 (iterN cs (8 * j) zs))).any id = false := by
  intro b
  induction b with
  | zero => intro zs h; simp [avxBlocks] at h
  | succ b ih =>
    intro zs h
    unfold avxBlocks at h
    by_cases hc : (cmpMask (iterN cs 7 zs)).any id
    · rw [if_pos hc] at h
      obtain ⟨j, hj, hcm⟩ := ih (iterN cs 8 zs) h
      refine ⟨j + 1, by omega, ?_⟩
      rw [show 8 * (j + 1) = 8 + 8 * j from by omega, iterN_add]
      exact hcm
    · exact ⟨0, by omega, by simpa [iterN] using eq_false_of_ne_true hc⟩

/-- The checked kernel's lane mask, lane by lane: with every seed in the
closed disk `|c|^2 ≤ 4`, `mandelbrot_avx` returns exactly the per-lane
comparison of the orbit state after 49 updates -- the early exit can only
fire when every lane's orbit has escaped for good. -/
theorem mandelbrot_avx_char (cs : List (ℚ × ℚ)) (h : ∀ c ∈ cs, normSq c ≤ 4) :
    mandelbrot_avx cs = cs.map (fun c => mandelCmp (orbit c 49)) := by
  unfold mandelbrot_avx
  cases hblk : avxBlocks cs avx_blocks cs with
  | some zs =>
    have hz := avxBlocks_some cs avx_blocks cs zs hblk
    subst hz
    show cmpMask (iterN cs 1 (iterN cs (8 * avx_blocks) cs)) = _
    rw [← iterN_add, show 8 * avx_blocks + 1 = 49 from by norm_num [avx_blocks],
      iterN_self]
    unfold cmpMask
    rw [List.map_map]
    rfl
  | none =>
    obtain ⟨j, hj, hcm⟩ := avxBlocks_none cs avx_blocks cs hblk
    rw [← iterN_add, iterN_self] at hcm
    rw [List.any_eq_false] at hcm
    symm
    rw [List.eq_replicate_iff]
    refine ⟨by simp, ?_⟩
    intro x hx
    rw [List.mem_map] at hx
    obtain ⟨c, hcmem, hcx⟩ := hx
    have hesc : normSq (orbit c (8 * j + 7)) > 4 := by
      have hmem : mandelCmp (orbit c (8 * j + 7)) ∈
          cmpMask (cs.map (fun c => orbit c (8 * j + 7))) := by
        unfold cmpMask
        rw [List.map_map]
        exact List.mem_map.mpr ⟨c, hcmem, rfl⟩
      have := hcm _ hmem
      unfold mandelCmp avxCmpLE at this
      simpa using this
    have h49 : normSq (orbit c 49) > 4 :=
      escape_orbit (h c hcmem)
        (by have : j ≤ avx_blocks - 1 := by omega
            unfold avx_blocks at this; omega) hesc
    rw [← hcx]
    unfold mandelCmp avxCmpLE
    simp [not_le.mpr h49]

/-- The uncheck kernel's lane mask is always the per-lane comparison of the
orbit state after 49 updates, with no hypothesis. -/
theorem mandelbrot_avx_full_char (cs : List (ℚ × ℚ)) :
    mandelbrot_avx_full cs = cs.map (fun c => mandelCmp (orbit c 49)) := by
  unfold mandelbrot_avx_full
  rw [show 8 * avx_blocks + 1 = 49 from by norm_num [avx_blocks], iterN_self]
  unfold cmpMask
  rw [List.map_map]
  rfl

/-! ### Viewport seeds -/

theorem normSq_le_four_of_inViewport {c : ℚ × ℚ} (h : inViewport c) :
    normSq c ≤ 4 := by
  obtain ⟨x, y⟩ := c
  obtain ⟨h1, h2, h3, h4⟩ := h
  simp only [min_x, max_x, min_y, max_y] at h1 h2 h3 h4
  unfold normSq
  nlinarith [h1, h2, h3, h4]

/-- The kernels agree lane-wise with the reference classification on batches
of viewport seeds. -/
theorem mandelbrot_avx_eq_map_refBounded (cs : List (ℚ × ℚ))
    (h : ∀ c ∈ cs, inViewport c) :
    mandelbrot_avx cs = cs.map refBounded := by
  have hb : ∀ c ∈ cs, normSq c ≤ 4 :=
    fun c hc => normSq_le_four_of_inViewport (h c hc)
  rw [mandelbrot_avx_char cs hb]
  exact (List.map_congr_left
    (fun c hc => refBounded_eq_cmp_orbit49 (hb c hc))).symm

/-! ### The within-row warm-start dispatch -/

theorem computeRowAux_length (lrf : Bool) (bs : List (List (ℚ × ℚ))) :
    (computeRowAux lrf bs).length = bs.length := by
  induction bs generalizing lrf with
  | nil => rfl
  | cons b bs ih => simp [computeRowAux, ih]

/-- Which kernel batch `i + 1` uses is exactly `bits2 != 0` of batch `i`:
the full (uncheck) kernel is chosen when the preceding mask was nonzero. -/
theorem computeRowAux_choice (bs : List (List (ℚ × ℚ))) (lrf : Bool) (i : ℕ)
    (h : i + 1 < bs.length) :
    ((computeRowAux lrf bs).getD (i + 1) default).1 =
      maskNonzero ((computeRowAux lrf bs).getD i default).2 := by
  induction bs generalizing lrf i with
  | nil => simp at h
  | cons b bs ih =>
    cases i with
    | zero =>
      cases bs with
      | nil => simp at h
      | cons b' bs' =>
        show ((computeRowAux (maskNonzero _) (b' :: bs')).getD 0 default).1 = _
        rfl
    | succ i =>
      show ((computeRowAux (maskNonzero _) bs).getD (i + 1) default).1 = _
      exact ih _ i (by simpa using Nat.lt_of_succ_lt_succ h)

/-- The first batch of a row-group takes the checked path: `compute_set`
initializes `last_reached_full = false`. -/
theorem computeRowAux_first (bs : List (List (ℚ × ℚ))) (hne : bs ≠ []) :
    ((computeRowAux false bs).getD 0 default).1 = false := by
  cases bs with
  | nil => exact absurd rfl hne
  | cons b bs => rfl

/-- On batches of viewport seeds the row fold's masks do not depend on the
warm-start flag: every batch's mask equals the checked kernel's mask. -/
theorem computeRowAux_masks (bs : List (List (ℚ × ℚ)))
    (h : ∀ b ∈ bs, ∀ c ∈ b, inViewport c) :
    ∀ lrf : Bool, (computeRowAux lrf bs).map Prod.snd = bs.map mandelbrot_avx := by
  induction bs with
  | nil => intro lrf; rfl
  | cons b bs ih =>
    intro lrf
    have hb : ∀ c ∈ b, inViewport c := h b (by simp)
    have hbs : ∀ b' ∈ bs, ∀ c ∈ b', inViewport c :=
      fun b' hb' => h b' (by simp [hb'])
    have hfull : mandelbrot_avx_full b = mandelbrot_avx b := by
      rw [mandelbrot_avx_full_char,
        mandelbrot_avx_char b
          (fun c hc => normSq_le_four_of_inViewport (hb c hc))]
    unfold computeRowAux
    cases lrf with
    | false =>
      show (mandelbrot_avx b) :: (computeRowAux _ bs).map Prod.snd = _
      rw [ih hbs]
      rfl
    | true =>
      show (mandelbrot_avx_full b) :: (computeRowAux _ bs).map Prod.snd = _
      rw [ih hbs, hfull]
      rfl

/-! ### Byte stores, footprints, and write commutation -/

theorem foldl_store_of_notMem (ws : List (ℕ × ℕ)) :
    ∀ (bmp : ℕ → ℕ) (a : ℕ), a ∉ ws.map Prod.fst →
      (ws.foldl (fun b av => store av.1 av.2 b) bmp) a = bmp a := by
  induction ws with
  | nil => intro bmp a _; rfl
  | cons w ws ih =>
    intro bmp a ha
    simp only [List.map_cons, List.mem_cons] at ha
    push_neg at ha
    show (ws.foldl _ (store w.1 w.2 bmp)) a = bmp a
    rw [ih (store w.1 w.2 bmp) a ha.2]
    unfold store
    rw [if_neg ha.1]

theorem foldl_store_of_mem (ws : List (ℕ × ℕ)) :
    ∀ (bmp bmp' : ℕ → ℕ) (a : ℕ), a ∈ ws.map Prod.fst →
      (ws.foldl (fun b av => store av.1 av.2 b) bmp) a =
        (ws.foldl (fun b av => store av.1 av.2 b) bmp') a := by
  induction ws with
  | nil => intro bmp bmp' a ha; simp at ha
  | cons w ws ih =>
    intro bmp bmp' a ha
    by_cases hmem : a ∈ ws.map Prod.fst
    · exact ih _ _ a hmem
    · simp only [List.map_cons, List.mem_cons] at ha
      have haw : a = w.1 := ha.resolve_right hmem
      show (ws.foldl _ (store w.1 w.2 bmp)) a = (ws.foldl _ (store w.1 w.2 bmp')) a
      rw [foldl_store_of_notMem ws _ a hmem, foldl_store_of_notMem ws _ a hmem]
      unfold store
      rw [if_pos haw, if_pos haw]

/-- The write addresses of row-group `g`, with the mask values forgotten. -/
theorem groupAddrs_eq (dim g : ℕ) :
    groupAddrs dim g =
      (List.range (widthB dim)).flatMap (fun w =>
        (List.range 4).map (fun r => widthB dim * (4 * g) + r * widthB dim + w)) := by
  unfold groupAddrs groupWrites groupWritesOf
  rw [List.map_flatMap]
  refine List.flatMap_congr ?_
  intro w _
  rw [List.map_map]
  rfl

theorem mem_groupAddrs_iff (dim g a : ℕ) :
    a ∈ groupAddrs dim g ↔
      ∃ r < 4, ∃ w < widthB dim,
        a = widthB dim * (4 * g) + r * widthB dim + w := by
  rw [groupAddrs_eq]
  simp only [List.mem_flatMap, List.mem_map, List.mem_range]
  constructor
  · rintro ⟨w, hw, r, hr, rfl⟩
    exact ⟨r, hr, w, hw, rfl⟩
  · rintro ⟨r, hr, w, hw, rfl⟩
    exact ⟨w, hw, r, hr, rfl⟩

theorem groupAddrs_bounds {dim g a : ℕ} (h : a ∈ groupAddrs dim g) :
    widthB dim * (4 * g) ≤ a ∧ a < widthB dim * (4 * g + 4) := by
  rw [mem_groupAddrs_iff] at h
  obtain ⟨r, hr, w, hw, rfl⟩ := h
  constructor
  · omega
  · have h1 : r * widthB dim + w < 4 * widthB dim := by
      calc r * widthB dim + w < r * widthB dim + widthB dim := by omega
        _ = (r + 1) * widthB dim := by ring
        _ ≤ 4 * widthB dim := Nat.mul_le_mul_right _ (by omega)
    calc widthB dim * (4 * g) + r * widthB dim + w
        < widthB dim * (4 * g) + 4 * widthB dim := by omega
      _ = widthB dim * (4 * g + 4) := by ring

theorem groupAddrs_disjoint {dim g g' : ℕ} (h : g ≠ g') :
    ∀ a ∈ groupAddrs dim g, a ∉ groupAddrs dim g' := by
  intro a ha ha'
  obtain ⟨hlo, hhi⟩ := groupAddrs_bounds ha
  obtain ⟨hlo', hhi'⟩ := groupAddrs_bounds ha'
  rcases Nat.lt_or_ge g g' with hlt | hge
  · have : widthB dim * (4 * g + 4) ≤ widthB dim * (4 * g') :=
      Nat.mul_le_mul_left _ (by omega)
    omega
  · have hgt : g' < g := by omega
    have : widthB dim * (4 * g' + 4) ≤ widthB dim * (4 * g) :=
      Nat.mul_le_mul_left _ (by omega)
    omega

theorem foldl_store_congr_at (ws : List (ℕ × ℕ)) (b₁ b₂ : ℕ → ℕ) (a : ℕ)
    (h : b₁ a = b₂ a) :
    (ws.foldl (fun b av => store av.1 av.2 b) b₁) a =
      (ws.foldl (fun b av => store av.1 av.2 b) b₂) a := by
  by_cases hmem : a ∈ ws.map Prod.fst
  · exact foldl_store_of_mem ws b₁ b₂ a hmem
  · rw [foldl_store_of_notMem ws b₁ a hmem, foldl_store_of_notMem ws b₂ a hmem]
    exact h

theorem writeGroup_frame_addr {dim g a : ℕ} (bmp : ℕ → ℕ)
    (h : a ∉ groupAddrs dim g) : writeGroup dim bmp g a = bmp a :=
  foldl_store_of_notMem (groupWrites dim g) bmp a h

theorem writeGroup_comm (dim : ℕ) (bmp : ℕ → ℕ) (g₁ g₂ : ℕ) :
    writeGroup dim (writeGroup dim bmp g₁) g₂ =
      writeGroup dim (writeGroup dim bmp g₂) g₁ := by
  by_cases hg : g₁ = g₂
  · rw [hg]
  · funext a
    by_cases h1 : a ∈ groupAddrs dim g₁
    · have h2 : a ∉ groupAddrs dim g₂ := fun h2 =>
        groupAddrs_disjoint hg a h1 h2
      rw [writeGroup_frame_addr (writeGroup dim bmp g₁) h2]
      exact (foldl_store_congr_at (groupWrites dim g₁) (writeGroup dim bmp g₂)
        bmp a (writeGroup_frame_addr bmp h2)).symm
    · by_cases h2 : a ∈ groupAddrs dim g₂
      · have h1' : a ∉ groupAddrs dim g₁ := h1
        rw [writeGroup_frame_addr (writeGroup dim bmp g₂) h1']
        exact foldl_store_congr_at (groupWrites dim g₂) (writeGroup dim bmp g₁)
          bmp a (writeGroup_frame_addr bmp h1')
      · rw [writeGroup_frame_addr (writeGroup dim bmp g₁) h2,
          writeGroup_frame_addr (writeGroup dim bmp g₂) h1,
          writeGroup_frame_addr bmp h1, writeGroup_frame_addr bmp h2]

theorem groupAddrs_nodup (dim g : ℕ) : (groupAddrs dim g).Nodup := by
  rw [groupAddrs_eq]
  by_cases hW : widthB dim = 0
  · rw [hW]
    simp
  · have hWpos : 0 < widthB dim := Nat.pos_of_ne_zero hW
    rw [List.nodup_flatMap]
    constructor
    · intro w _
      refine List.Nodup.map ?_ (List.nodup_range 4)
      intro r₁ r₂ h
      have := Nat.add_right_cancel h
      have := Nat.add_left_cancel this
      exact Nat.eq_of_mul_eq_mul_right hWpos this
    · rw [List.pairwise_iff_forall_sublist]
      intro w₁ w₂ hsub
      have hne : w₁ ≠ w₂ := by
        intro hEq
        rw [hEq] at hsub
        have := List.Sublist.length_le hsub
        have := (List.nodup_range (widthB dim)).sublist hsub
        simp at this
      have hw₁ : w₁ ∈ List.range (widthB dim) := hsub.subset (by simp)
      have hw₂ : w₂ ∈ List.range (widthB dim) := hsub.subset (by simp)
      rw [List.mem_range] at hw₁ hw₂
      intro a ha₁ ha₂
      rw [List.mem_map] at ha₁ ha₂
      obtain ⟨r₁, _, hre₁⟩ := ha₁
      obtain ⟨r₂, _, hre₂⟩ := ha₂
      have hm₁ : a % widthB dim = w₁ := by
        rw [← hre₁, show widthB dim * (4 * g) + r₁ * widthB dim + w₁ =
          widthB dim * (4 * g + r₁) + w₁ from by ring, Nat.add_comm,
          Nat.add_mul_mod_self_left, Nat.mod_eq_of_lt hw₁]
      have hm₂ : a % widthB dim = w₂ := by
        rw [← hre₂, show widthB dim * (4 * g) + r₂ * widthB dim + w₂ =
          widthB dim * (4 * g + r₂) + w₂ from by ring, Nat.add_comm,
          Nat.add_mul_mod_self_left, Nat.mod_eq_of_lt hw₂]
      exact hne (hm₁ ▸ hm₂)

/-- All byte addresses written by the whole `compute_set` loop
(`for sy = 0; sy < dim; sy += 4`), in row-group order. -/
def allWriteAddrs (dim : ℕ) : List ℕ :=
  (List.range (dim / 4)).flatMap (fun g => groupAddrs dim g)

theorem mem_allWriteAddrs_iff (dim : ℕ) (h8 : 8 ∣ dim) (a : ℕ) :
    a ∈ allWriteAddrs dim ↔ a < widthB dim * dim := by
  have h4 : 4 * (dim / 4) = dim := by
    obtain ⟨k, rfl⟩ := h8
    omega
  constructor
  · intro ha
    rw [allWriteAddrs, List.mem_flatMap] at ha
    obtain ⟨g, hg, hmem⟩ := ha
    rw [List.mem_range] at hg
    have hhi := (groupAddrs_bounds hmem).2
    have : widthB dim * (4 * g + 4) ≤ widthB dim * dim := by
      refine Nat.mul_le_mul_left _ ?_
      omega
    omega
  · intro ha
    have hW : 0 < widthB dim := by
      rcases Nat.eq_zero_or_pos (widthB dim) with h | h
      · rw [h] at ha; omega
      · exact h
    rw [allWriteAddrs, List.mem_flatMap]
    refine ⟨a / widthB dim / 4, ?_, ?_⟩
    · rw [List.mem_range]
      have hq : a / widthB dim < dim := by
        rw [Nat.div_lt_iff_lt_mul hW]
        calc a < widthB dim * dim := ha
          _ = dim * widthB dim := by ring
      exact Nat.div_lt_div_of_lt_of_dvd ⟨dim / 4, by omega⟩ hq
    · rw [mem_groupAddrs_iff]
      refine ⟨a / widthB dim % 4, Nat.mod_lt _ (by omega), a % widthB dim,
        Nat.mod_lt _ hW, ?_⟩
      have hq : 4 * (a / widthB dim / 4) + a / widthB dim % 4 = a / widthB dim :=
        Nat.div_add_mod _ 4
      have ha' : widthB dim * (a / widthB dim) + a % widthB dim = a :=
        Nat.div_add_mod a (widthB dim)
      calc a = widthB dim * (a / widthB dim) + a % widthB dim := ha'.symm
        _ = widthB dim * (4 * (a / widthB dim / 4) + a / widthB dim % 4) +
            a % widthB dim := by rw [hq]
        _ = widthB dim * (4 * (a / widthB dim / 4)) +
            (a / widthB dim % 4) * widthB dim + a % widthB dim := by ring

theorem allWriteAddrs_nodup (dim : ℕ) : (allWriteAddrs dim).Nodup := by
  rw [allWriteAddrs, List.nodup_flatMap]
  refine ⟨fun g _ => groupAddrs_nodup dim g, ?_⟩
  rw [List.pairwise_iff_forall_sublist]
  intro g₁ g₂ hsub
  have hne : g₁ ≠ g₂ := by
    intro hEq
    rw [hEq] at hsub
    have := (List.nodup_range (dim / 4)).sublist hsub
    simp at this
  exact fun a ha₁ ha₂ => groupAddrs_disjoint hne a ha₁ ha₂

theorem allWriteAddrs_count (dim : ℕ) (h8 : 8 ∣ dim) {a : ℕ}
    (ha : a < widthB dim * dim) : (allWriteAddrs dim).count a = 1 := by
  have hperm : (allWriteAddrs dim).Perm (List.range (widthB dim * dim)) := by
    rw [List.perm_ext_iff_of_nodup (allWriteAddrs_nodup dim)
      (List.nodup_range _)]
    intro b
    rw [mem_allWriteAddrs_iff dim h8, List.mem_range]
  rw [hperm.count_eq]
  exact List.count_eq_one_of_mem (List.nodup_range _) (List.mem_range.mpr ha)

/-! ### The sampled seeds lie in the viewport -/

theorem scalex_eq (dim : ℕ) : scalex dim = 2 / (dim : ℚ) := by
  unfold scalex max_x min_x
  norm_num

theorem scaley_eq (dim : ℕ) : scaley dim = 2 / (dim : ℚ) := by
  unfold scaley max_y min_y
  norm_num

theorem seed_offset_bounds {dim k : ℕ} (hk : k < dim) :
    0 ≤ (k : ℚ) * (2 / (dim : ℚ)) ∧ (k : ℚ) * (2 / (dim : ℚ)) ≤ 2 := by
  have hdim : (0 : ℚ) < dim := by
    have : 0 < dim := by omega
    exact_mod_cast this
  constructor
  · positivity
  · rw [show (k : ℚ) * (2 / dim) = 2 * k / dim from by ring,
      div_le_iff₀ hdim]
    have : (k : ℚ) ≤ dim := by exact_mod_cast Nat.le_of_lt hk
    nlinarith

theorem batchSeeds_inViewport {dim y w : ℕ} (h8 : 8 ∣ dim)
    (hw : w < widthB dim) (hy : y + 3 < dim) :
    ∀ c ∈ batchSeeds dim y w, inViewport c := by
  intro c hc
  unfold batchSeeds at hc
  rw [List.mem_flatMap] at hc
  obtain ⟨r, hr, hc⟩ := hc
  rw [List.mem_range] at hr
  rw [List.mem_map] at hc
  obtain ⟨j, hj, rfl⟩ := hc
  rw [List.mem_range] at hj
  have hdim : 8 * widthB dim = dim := by
    obtain ⟨k, rfl⟩ := h8
    unfold widthB
    omega
  have hcol : 8 * w + (7 - j) < dim := by omega
  have hrow : y + r < dim := by omega
  obtain ⟨hx0, hx2⟩ := @seed_offset_bounds dim _ hcol
  obtain ⟨hy0, hy2⟩ := @seed_offset_bounds dim _ hrow
  have hj7 : j ≤ 7 := by omega
  have hcx : cxsLane dim w j = min_x + (8 * w + (7 - j) : ℕ) * (2 / (dim : ℚ)) := by
    unfold cxsLane
    rw [scalex_eq]
  have hcy : cyOff dim y r = min_y + (y + r : ℕ) * (2 / (dim : ℚ)) := by
    unfold cyOff
    rw [scaley_eq]
    push_cast
    ring
  refine ⟨?_, ?_, ?_, ?_⟩
  · show min_x ≤ cxsLane dim w j
    rw [hcx]; linarith
  · show cxsLane dim w j ≤ max_x
    rw [hcx]
    have : max_x = min_x + 2 := by unfold max_x min_x; norm_num
    rw [this]; linarith
  · show min_y ≤ cyOff dim y r
    rw [hcy]; linarith
  · show cyOff dim y r ≤ max_y
    rw [hcy]
    have : max_y = min_y + 2 := by unfold max_y min_y; norm_num
    rw [this]; linarith

/-! ### The warm-start heuristic does not change the bitmap -/

theorem groupMasks_eq_checked {dim g : ℕ} (h8 : 8 ∣ dim) (hg : g < dim / 4) :
    groupMasks dim g = groupMasksChecked dim g := by
  have hrow : ∀ b ∈ avxRowBatches dim (4 * g), ∀ c ∈ b, inViewport c := by
    intro b hb
    unfold avxRowBatches at hb
    rw [List.mem_map] at hb
    obtain ⟨w, hw, rfl⟩ := hb
    rw [List.mem_range] at hw
    have h4 : 4 * (dim / 4) = dim := by
      obtain ⟨k, rfl⟩ := h8
      omega
    exact batchSeeds_inViewport h8 hw (by omega)
  unfold groupMasks groupMasksChecked computeRowChecked
  rw [computeRowAux_masks _ hrow false, List.map_map]
  rfl

theorem foldl_congr_mem {α β : Type} (l : List α) (f h : β → α → β)
    (hfh : ∀ b : β, ∀ a ∈ l, f b a = h b a) :
    ∀ b : β, l.foldl f b = l.foldl h b := by
  induction l with
  | nil => intro b; rfl
  | cons a l ih =>
    intro b
    show l.foldl f (f b a) = l.foldl h (h b a)
    rw [hfh b a (by simp)]
    exact ih (fun b' a' ha' => hfh b' a' (by simp [ha'])) (h b a)

theorem computeSetRun_eq_checked (dim : ℕ) (h8 : 8 ∣ dim) (init : ℕ → ℕ) :
    computeSetRun dim init = computeSetChecked dim init := by
  unfold computeSetRun computeSet computeSetChecked
  refine foldl_congr_mem _ _ _ ?_ init
  intro bmp g hg
  rw [List.mem_range] at hg
  unfold writeGroup writeGroupChecked groupWrites
  rw [groupMasks_eq_checked h8 hg]

/-! ## The claims

The witnesses and the C3 counterexample evaluate the kernels on concrete
rational inputs with `decide`; the rational arithmetic operations are
unsealed so that this evaluation can proceed by reduction. -/

unseal Rat.mul Rat.inv Rat.add Rat.sub

/-- C1: for every batch of seeds drawn from the shared viewport (same
resolution, iteration budget, boundary comparison and arithmetic), the
early-exit batched kernel `mandelbrot_avx` of the vector files classifies
every lane (bounded vs escaped) exactly as the scalar no-early-exit
reference `mandelbrot` does: early exit and batching change no pixel. -/
theorem C1_reference_equivalence (cs : List (ℚ × ℚ))
    (h : ∀ c ∈ cs, inViewport c) :
    mandelbrot_avx cs = cs.map refBounded :=
  mandelbrot_avx_eq_map_refBounded cs h

theorem C1_reference_equivalence_witness :
    (∀ c ∈ [((0 : ℚ), (0 : ℚ)), (-1, 0), (0, 1)], inViewport c) ∧
      mandelbrot_avx [((0 : ℚ), (0 : ℚ)), (-1, 0), (0, 1)] =
        [((0 : ℚ), (0 : ℚ)), (-1, 0), (0, 1)].map refBounded :=
  ⟨by decide, C1_reference_equivalence _ (by decide)⟩

/-- C2: on every batch of viewport seeds the warm-start (uncheck,
full-unroll) kernel `mandelbrot_avx_full` returns exactly the lane mask of
the checked kernel `mandelbrot_avx`; consequently `compute_set` with the
warm-start heuristic produces a bitmap identical to the one produced by
always taking the checked path. -/
theorem C2_warm_start_equivalence :
    (∀ cs : List (ℚ × ℚ), (∀ c ∈ cs, inViewport c) →
        mandelbrot_avx_full cs = mandelbrot_avx cs) ∧
      ∀ dim : ℕ, 8 ∣ dim → ∀ init : ℕ → ℕ,
        computeSetRun dim init = computeSetChecked dim init := by
  constructor
  · intro cs h
    rw [mandelbrot_avx_full_char,
      mandelbrot_avx_char cs (fun c hc => normSq_le_four_of_inViewport (h c hc))]
  · intro dim h8 init
    exact computeSetRun_eq_checked dim h8 init

theorem C2_warm_start_equivalence_witness :
    ((∀ c ∈ [((0 : ℚ), (0 : ℚ)), (0, 1)], inViewport c) ∧
        mandelbrot_avx_full [((0 : ℚ), (0 : ℚ)), (0, 1)] =
          mandelbrot_avx [((0 : ℚ), (0 : ℚ)), (0, 1)]) ∧
      (8 ∣ 8 ∧ computeSetRun 8 (fun _ => 0) = computeSetChecked 8 (fun _ => 0)) :=
  ⟨⟨by decide, C2_warm_start_equivalence.1 _ (by decide)⟩,
   ⟨by decide, C2_warm_start_equivalence.2 8 (by decide) _⟩⟩

/-- C4: for every seed in the viewport and every orbit state with
`x^2 + y^2 > 4`, the next state `(x^2 - y^2 + cx, 2xy + cy)` also has
squared modulus above `4`: an escaped orbit never re-enters the bounded
region, which is what makes the batch-level early exit safe. -/
theorem C4_escaped_stays_escaped (cx cy x y : ℚ) (hc : inViewport (cx, cy))
    (hz : normSq (x, y) > 4) : normSq (stepLane (cx, cy) (x, y)) > 4 :=
  normSq_stepLane_gt (normSq_le_four_of_inViewport hc) hz

theorem C4_escaped_stays_escaped_witness :
    (inViewport ((0 : ℚ), (0 : ℚ)) ∧ normSq ((3 : ℚ), (0 : ℚ)) > 4) ∧
      normSq (stepLane ((0 : ℚ), (0 : ℚ)) ((3 : ℚ), (0 : ℚ))) > 4 :=
  ⟨⟨by decide, by decide⟩, C4_escaped_stays_escaped 0 0 3 0 (by decide) (by decide)⟩

/-- C5: for a fixed dimension and fixed initial buffer contents,
`compute_set` is deterministic and independent of the order in which the
row-groups are processed: any permutation of the row-group schedule yields
the same bitmap. -/
theorem C5_order_independence (dim : ℕ) (init : ℕ → ℕ) (o₁ o₂ : List ℕ)
    (hperm : o₁.Perm o₂) :
    computeSet dim o₁ init = computeSet dim o₂ init := by
  haveI : RightCommutative (writeGroup dim) := ⟨writeGroup_comm dim⟩
  exact hperm.foldl_eq init

theorem C5_order_independence_witness :
    ([0, 1] : List ℕ).Perm [1, 0] ∧
      computeSet 8 [0, 1] (fun _ => 0) = computeSet 8 [1, 0] (fun _ => 0) :=
  ⟨by decide, C5_order_independence 8 (fun _ => 0) [0, 1] [1, 0] (by decide)⟩

/-- C8: every row-group writes only bytes of its own four rows (it leaves
every address outside `[width*4g, width*(4g+4))` unchanged and its footprint
lies inside that interval), footprints of distinct row-groups are disjoint,
and over the whole computation every byte of the `width*dim`-byte bitmap is
written exactly once. -/
theorem C8_frame_and_coverage :
    (∀ (dim g : ℕ) (bmp : ℕ → ℕ) (a : ℕ), a ∉ groupAddrs dim g →
        writeGroup dim bmp g a = bmp a) ∧
      (∀ dim g : ℕ, ∀ a ∈ groupAddrs dim g,
        widthB dim * (4 * g) ≤ a ∧ a < widthB dim * (4 * g + 4)) ∧
      (∀ dim g g' : ℕ, g ≠ g' → ∀ a ∈ groupAddrs dim g, a ∉ groupAddrs dim g') ∧
      ∀ dim : ℕ, 8 ∣ dim → ∀ a < widthB dim * dim, (allWriteAddrs dim).count a = 1 := by
  refine ⟨?_, ?_, ?_, ?_⟩
  · intro dim g bmp a ha
    exact writeGroup_frame_addr bmp ha
  · intro dim g a ha
    exact groupAddrs_bounds ha
  · intro dim g g' hne a ha
    exact groupAddrs_disjoint hne a ha
  · intro dim h8 a ha
    exact allWriteAddrs_count dim h8 ha

theorem C8_frame_and_coverage_witness :
    ((99 ∉ groupAddrs 8 0 ∧ writeGroup 8 (fun _ => 0) 0 99 = (fun _ => (0 : ℕ)) 99) ∧
        (0 ∈ groupAddrs 8 0 ∧ widthB 8 * (4 * 0) ≤ 0 ∧ 0 < widthB 8 * (4 * 0 + 4))) ∧
      (((0 : ℕ) ≠ 1 ∧ 0 ∈ groupAddrs 8 0 ∧ 0 ∉ groupAddrs 8 1) ∧
        (8 ∣ 8 ∧ 0 < widthB 8 * 8 ∧ (allWriteAddrs 8).count 0 = 1)) :=
  ⟨⟨⟨by decide, C8_frame_and_coverage.1 8 0 (fun _ => 0) 99 (by decide)⟩,
    ⟨by decide, C8_frame_and_coverage.2.1 8 0 0 (by decide)⟩⟩,
   ⟨⟨by decide, by decide, C8_frame_and_coverage.2.2.1 8 0 1 (by decide) 0 (by decide)⟩,
    ⟨by decide, by decide, C8_frame_and_coverage.2.2.2 8 (by decide) 0 (by decide)⟩⟩⟩

/-- C7: for every pixel coordinate, the seed each variant feeds to the
iterator is `(min_x + px * scale_x, min_y + py * scale_y)` with
`scale_x = (max_x - min_x)/dim` and `scale_y = (max_y - min_y)/dim`: the
reference seed, the avx file's `cxs` table and `cy0 + r*scaley` rows, and
the avx2 file's shifted vectors all equal the sampler formula. -/
theorem C7_sampler_formula :
    (∀ dim x y : ℕ, refSeed dim x y = samplerSpec dim x y) ∧
      (∀ dim i j y r : ℕ,
        (cxsLane dim i j, cyOff dim y r) =
          samplerSpec dim (8 * i + (7 - j)) (y + r)) ∧
      (∀ dim w : ℕ,
        avx2cx0 dim w = [(samplerSpec dim (8 * w + 3) 0).1,
          (samplerSpec dim (8 * w + 2) 0).1, (samplerSpec dim (8 * w + 1) 0).1,
          (samplerSpec dim (8 * w) 0).1] ∧
        avx2cx1 dim w = [(samplerSpec dim (8 * w + 7) 0).1,
          (samplerSpec dim (8 * w + 6) 0).1, (samplerSpec dim (8 * w + 5) 0).1,
          (samplerSpec dim (8 * w + 4) 0).1]) ∧
      ∀ dim y : ℕ, avx2cy0 dim y = (samplerSpec dim 0 y).2 ∧
        avx2cy1 dim y = (samplerSpec dim 0 (y + 1)).2 := by
  refine ⟨?_, ?_, ?_, ?_⟩
  · intro dim x y
    unfold refSeed samplerSpec scalex scaley
    rw [Prod.mk.injEq]
    constructor <;> ring
  · intro dim i j y r
    unfold cxsLane cyOff samplerSpec scalex scaley
    rw [Prod.mk.injEq]
    constructor
    · ring
    · push_cast
      ring
  · intro dim w
    unfold avx2cx0 avx2cx1 samplerSpec scalex
    constructor <;>
      · simp only [List.cons.injEq, and_true]
        refine ⟨?_, ?_, ?_, ?_⟩ <;>
          · push_cast
            ring
  · intro dim y
    unfold avx2cy0 avx2cy1 samplerSpec scaley
    constructor
    · ring
    · push_cast
      ring

/-- C9: when the requested dimension is not a multiple of 8, `main` reports
the error and returns status 999 (nonzero) without running `compute_set`;
when the argument is absent or non-positive the dimension defaults to 200,
and the field is square (`width = height = dim`). -/
theorem C9_dimension_validation (arg : Option Int) :
    (chooseDim arg % 8 ≠ 0 →
        mainRun arg = Except.error 999 ∧ (999 : Int) ≠ 0) ∧
      ((arg = none ∨ ∃ v ≤ 0, arg = some v) → chooseDim arg = 200) := by
  constructor
  · intro h
    refine ⟨?_, by norm_num⟩
    unfold mainRun
    rw [if_pos h]
  · rintro (rfl | ⟨v, hv, rfl⟩)
    · rfl
    · show (if v > 0 then v else 200) = 200
      rw [if_neg (by omega)]

theorem C9_dimension_validation_witness :
    (chooseDim (some 12) % 8 ≠ 0 ∧ mainRun (some 12) = Except.error 999) ∧
      ((some (-3) = none ∨ ∃ v ≤ 0, some (-3) = some v) ∧
        chooseDim (some (-3)) = 200) :=
  ⟨⟨by decide, ((C9_dimension_validation (some 12)).1 (by decide)).1⟩,
   ⟨Or.inr ⟨-3, by norm_num, rfl⟩,
    (C9_dimension_validation (some (-3))).2 (Or.inr ⟨-3, by norm_num, rfl⟩)⟩⟩

theorem mandelbrotAux_zero_orbit : ∀ m : ℕ, mandelbrotAux 0 0 m 0 0 = 0 := by
  intro m
  induction m with
  | zero => rfl
  | succ m ih =>
    show (if (0 : ℚ) * 0 + 0 * 0 > 4 then m + 1
      else mandelbrotAux 0 0 m ((0 : ℚ) * 0 - 0 * 0 + 0) (2 * ((0 : ℚ) * 0) + 0)) = 0
    rw [if_neg (by norm_num)]
    rw [show (0 : ℚ) * 0 - 0 * 0 + 0 = 0 from by norm_num,
      show 2 * ((0 : ℚ) * 0) + 0 = 0 from by norm_num]
    exact ih

/-- C10: for every iteration budget `m ≥ 1` the seed `c = (0, 0)` is
classified bounded (`mandelbrot` returns 0, the orbit staying at 0), and the
reference `compute_set` pixel that samples `c = 0` (pixel `(150, 100)` at
`dim = 200`) gets bit `1`. -/
theorem C10_origin_always_bounded :
    (∀ m : ℕ, 1 ≤ m → mandelbrotIter m 0 0 = 0) ∧
      refPixelBit 200 150 100 = true := by
  constructor
  · intro m _
    exact mandelbrotAux_zero_orbit m
  · have hx : (refSeed 200 150 100).1 = 0 := by
      unfold refSeed scalex min_x max_x
      norm_num
    have hy : (refSeed 200 150 100).2 = 0 := by
      unfold refSeed scaley min_y max_y
      norm_num
    unfold refPixelBit
    rw [hx, hy]
    have h0 : mandelbrot 0 0 = 0 := mandelbrotAux_zero_orbit ref_max_iter
    simp [h0]

theorem C10_origin_always_bounded_witness :
    1 ≤ 1 ∧ mandelbrotIter 1 0 0 = 0 :=
  ⟨le_refl 1, C10_origin_always_bounded.1 1 (le_refl 1)⟩

/-- C6 counterexample: contrary to the claim that two of the kernels differ
in both boundary comparison and iteration budget, the three variants agree
on both: the reference's continue-test `!(x2+y2 > 4)` equals the vector
files' `_CMP_LE_OQ` test `x2+y2 ≤ 4` at every input, and all three budgets
are 50 iterations. -/
theorem C6_counterexample :
    (refBoundedTest = avxCmpLE ∧ avxCmpLE = avx2CmpLE) ∧
      ref_max_iter = avx_iter_budget ∧ avx_iter_budget = avx2_iter_budget := by
  refine ⟨⟨?_, rfl⟩, by norm_num [ref_max_iter, avx_iter_budget, avx_blocks], rfl⟩
  funext s
  unfold refBoundedTest avxCmpLE
  rw [← decide_not]
  exact decide_eq_decide.mpr not_lt

/-- C6 (as amended): no two of the three kernels disagree -- the boundary
comparison is `x2 + y2 ≤ 4` ("bounded") in every variant, and every variant
runs a 50-iteration budget. -/
theorem C6_uniform_policy (s : ℚ) :
    (refBoundedTest s = avxCmpLE s ∧ avxCmpLE s = avx2CmpLE s) ∧
      ref_max_iter = 50 ∧ avx_iter_budget = 50 ∧ avx2_iter_budget = 50 := by
  refine ⟨⟨?_, rfl⟩, rfl, by norm_num [avx_iter_budget, avx_blocks],
    by norm_num [avx2_iter_budget, avx_blocks]⟩
  unfold refBoundedTest avxCmpLE
  rw [← decide_not]
  exact decide_eq_decide.mpr not_lt

/-- C3 (as amended): in `compute_set`, every column batch after the first
invokes the full-unrolled kernel exactly when the immediately preceding
batch's mask was *nonzero* (some lane still bounded, i.e. the previous
batch reached the full iteration budget), and the first batch of each
row-group always takes the checked kernel. -/
theorem C3_warm_start_dispatch :
    (∀ (bs : List (List (ℚ × ℚ))) (lrf : Bool) (i : ℕ), i + 1 < bs.length →
        ((computeRowAux lrf bs).getD (i + 1) default).1 =
          maskNonzero ((computeRowAux lrf bs).getD i default).2) ∧
      ∀ bs : List (List (ℚ × ℚ)), bs ≠ [] →
        ((computeRowAux false bs).getD 0 default).1 = false :=
  ⟨computeRowAux_choice, computeRowAux_first⟩

theorem C3_warm_start_dispatch_witness :
    (0 + 1 < ([[((3 : ℚ), (0 : ℚ))], [((0 : ℚ), (0 : ℚ))]] :
          List (List (ℚ × ℚ))).length ∧
        ((computeRowAux false
            [[((3 : ℚ), (0 : ℚ))], [((0 : ℚ), (0 : ℚ))]]).getD (0 + 1) default).1 =
          maskNonzero ((computeRowAux false
            [[((3 : ℚ), (0 : ℚ))], [((0 : ℚ), (0 : ℚ))]]).getD 0 default).2) ∧
      (([[((3 : ℚ), (0 : ℚ))]] : List (List (ℚ × ℚ))) ≠ [] ∧
        ((computeRowAux false [[((3 : ℚ), (0 : ℚ))]]).getD 0 default).1 = false) :=
  ⟨⟨by norm_num, C3_warm_start_dispatch.1 _ false 0 (by norm_num)⟩,
   ⟨by simp, C3_warm_start_dispatch.2 _ (by simp)⟩⟩

/-- C3 counterexample: at `dim = 32`, row-group 0 of the avx `compute_set`,
the first column batch fully escapes (its returned mask `bits2` is zero:
every one of the 32 lanes has left the disk by the first block check), yet
the next batch does *not* invoke the full-unrolled kernel -- it takes the
checked path, because the code dispatches on `bits2 != 0`, not on
"previous batch fully escaped" as the claim states. -/
theorem C3_counterexample :
    maskNonzero ((computeRowAux false (avxRowBatches 32 0)).getD 0 default).2
        = false ∧
      ((computeRowAux false (avxRowBatches 32 0)).getD 1 default).1 = false := by
  have hm : maskNonzero
      ((computeRowAux false (avxRowBatches 32 0)).getD 0 default).2 = false := by
    decide
  refine ⟨hm, ?_⟩
  have hlen : 0 + 1 < (avxRowBatches 32 0).length := by
    simp [avxRowBatches, widthB]
  have := computeRowAux_choice (avxRowBatches 32 0) false 0 hlen
  rw [show (0 + 1 : ℕ) = 1 from rfl] at this
  rw [this]
  exact hm
